import Mathlib

/-!
Verification of the alias-line parser, grouper, presenter ordering and driver
loop of the format-aliases utility (src/main.rs), shallowly embedded over
lists of characters.  A nom parser `IResult<&str, T>` is modelled as
`List Char → Option (List Char × T)`, returning the unconsumed remainder
together with the parsed output, and `None` on parse failure.
-/

namespace FormatAliases

/-- Unicode white space per Rust's char::is_whitespace (the White_Space
property), used by parse_token's predicate and by str::trim. -/
def rustIsWhitespace (c : Char) : Bool :=
  let n := c.toNat
  n == 0x09 || n == 0x0A || n == 0x0B || n == 0x0C || n == 0x0D ||
  n == 0x20 || n == 0x85 || n == 0xA0 || n == 0x1680 ||
  (decide (0x2000 ≤ n) && decide (n ≤ 0x200A)) ||
  n == 0x2028 || n == 0x2029 || n == 0x202F || n == 0x205F || n == 0x3000

/-- The four characters accepted by nom's multispace1. -/
def isMultispace (c : Char) : Bool :=
  c == ' ' || c == '\t' || c == '\r' || c == '\n'

/-- nom's take_while1: longest non-empty run of characters satisfying p;
fails when the run is empty.  take_till1 p is take_while1 (not p). -/
def takeWhile1 (p : Char → Bool) (input : List Char) :
    Option (List Char × List Char) :=
  if input.takeWhile p = [] then none
  else some (input.dropWhile p, input.takeWhile p)

/-- parse_name: take_till1 of the character equal to the equals sign. -/
def parse_name (input : List Char) : Option (List Char × List Char) :=
  takeWhile1 (fun c => c != '=') input

/-- The character class of a value token: anything but a single quote,
a double quote or whitespace. -/
def tokenChar (c : Char) : Bool :=
  c != '\'' && c != '"' && !(rustIsWhitespace c)

/-- parse_token: take_while1 of tokenChar. -/
def parse_token (input : List Char) : Option (List Char × List Char) :=
  takeWhile1 tokenChar input

/-- nom's multispace1: one or more of space, tab, CR, LF. -/
def multispace1 (input : List Char) : Option (List Char × List Char) :=
  takeWhile1 isMultispace input

/-- The loop of nom's separated_list1 (after the first element): repeatedly
parse the separator then an element; on failure of either, stop and return
the input from before the separator.  Fuel bounds the recursion; it is
always sufficient because multispace1 consumes at least one character. -/
def sepListAux (fuel : Nat) (input : List Char) (acc : List (List Char)) :
    List Char × List (List Char) :=
  match fuel with
  | 0 => (input, acc)
  | fuel + 1 =>
    match multispace1 input with
    | none => (input, acc)
    | some (rest, _) =>
      match parse_token rest with
      | none => (input, acc)
      | some (rest2, t) => sepListAux fuel rest2 (acc ++ [t])

/-- parse_whitespace_separated: separated_list1(multispace1, parse_token). -/
def parse_whitespace_separated (input : List Char) :
    Option (List Char × List (List Char)) :=
  match parse_token input with
  | none => none
  | some (rest, t) =>
    let r := sepListAux rest.length rest [t]
    some (r.1, r.2)

/-- nom's delimited(tag(q), parse_whitespace_separated, tag(q)) for a one
character quote q. -/
def parse_quoted (q : Char) (input : List Char) :
    Option (List Char × List (List Char)) :=
  match input with
  | [] => none
  | c :: rest =>
    if c = q then
      match parse_whitespace_separated rest with
      | none => none
      | some (rest2, toks) =>
        match rest2 with
        | [] => none
        | c2 :: rest3 => if c2 = q then some (rest3, toks) else none
    else none

/-- parse_between_quotes: alt of the double-quoted and the single-quoted
delimited forms, in that order. -/
def parse_between_quotes (input : List Char) :
    Option (List Char × List (List Char)) :=
  match parse_quoted '"' input with
  | some r => some r
  | none => parse_quoted '\'' input

/-- parse_value: alt(parse_between_quotes, parse_whitespace_separated). -/
def parse_value (input : List Char) :
    Option (List Char × List (List Char)) :=
  match parse_between_quotes input with
  | some r => some r
  | none => parse_whitespace_separated input

/-- The Alias record of src/main.rs: a name and a token sequence. -/
structure Alias where
  name : List Char
  value : List (List Char)
  deriving DecidableEq, Repr

/-- parse_alias: separated_pair(parse_name, tag of the equals sign,
parse_value), mapped into an Alias. -/
def parse_alias (input : List Char) : Option (List Char × Alias) :=
  match parse_name input with
  | none => none
  | some (rest, n) =>
    match rest with
    | [] => none
    | c :: rest2 =>
      if c = '=' then
        match parse_value rest2 with
        | none => none
        | some (rest3, v) => some (rest3, ⟨n, v⟩)
      else none

/-- The Aliases grouper: the HashMap from command name to the vector of
aliases, modelled as an association list (entry insertion order). -/
structure Aliases where
  aliases : List (List Char × List Alias)
  deriving DecidableEq, Repr

/-- HashMap entry(k).or_insert_with(Vec::new) followed by Vec::push. -/
def entryPush (m : List (List Char × List Alias)) (k : List Char) (a : Alias) :
    List (List Char × List Alias) :=
  match m with
  | [] => [(k, [a])]
  | (k2, v) :: rest =>
    if k2 = k then (k2, v ++ [a]) :: rest
    else (k2, v) :: entryPush rest k a

/-- Aliases::push: the bucket key is the unchecked index value[0]; the
out-of-bounds panic is modelled as none. -/
def Aliases.push (m : Aliases) (a : Alias) : Option Aliases :=
  match a.value with
  | [] => none
  | k :: _ => some ⟨entryPush m.aliases k a⟩

/-- A sequence of pushes into the grouper. -/
def pushAll (m : Aliases) : List Alias → Option Aliases
  | [] => some m
  | a :: rest =>
    match m.push a with
    | none => none
    | some m2 => pushAll m2 rest

/-- Rust str::trim: strip leading and trailing char::is_whitespace. -/
def trim (l : List Char) : List Char :=
  ((l.dropWhile rustIsWhitespace).reverse.dropWhile rustIsWhitespace).reverse

/-- The mutable state of the driver loop in format_aliases: the grouper and
the error_aliases vector of unparsable lines. -/
structure DriverState where
  aliases : Aliases
  errors : List (List Char)
  deriving DecidableEq, Repr

/-- One iteration of the driver loop of format_aliases: trim the raw line,
skip it when empty, otherwise push the parsed Alias (none models the panic
inside Aliases::push) or append the line to error_aliases. -/
def processLine (st : DriverState) (raw : List Char) : Option DriverState :=
  if trim raw = [] then some st
  else
    match parse_alias (trim raw) with
    | some (_, a) =>
      match st.aliases.push a with
      | some m => some ⟨m, st.errors⟩
      | none => none
    | none => some ⟨st.aliases, st.errors ++ [trim raw]⟩

/-- The driver loop of format_aliases over a list of raw input lines,
starting from a given state. -/
def format_aliases (st : DriverState) : List (List Char) → Option DriverState
  | [] => some st
  | l :: ls =>
    match processLine st l with
    | none => none
    | some st2 => format_aliases st2 ls

/-- A whole run of the driver from the empty state. -/
def runDriver (lines : List (List Char)) : Option DriverState :=
  format_aliases ⟨⟨[]⟩, []⟩ lines

/-- Lexicographic comparison of character lists, as Rust's Ord for String
(byte-wise comparison of UTF-8 strings coincides with code-point order). -/
def cmpChars : List Char → List Char → Ordering
  | [], [] => .eq
  | [], _ :: _ => .lt
  | _ :: _, [] => .gt
  | a :: x, b :: y => if a < b then .lt else if b < a then .gt else cmpChars x y

/-- The manual impl Ord for Alias: compare by name alone. -/
def Alias.cmp (a b : Alias) : Ordering := cmpChars a.name b.name

/-- The non-strict order induced by Alias::cmp, used by slice::sort. -/
def aliasLe (a b : Alias) : Prop := a.cmp b ≠ Ordering.gt

instance : DecidableRel aliasLe := fun a b => by
  unfold aliasLe
  exact inferInstance

/-- The derived PartialEq for Alias: all fields (name and value) compared. -/
def aliasEqDerived (a b : Alias) : Bool :=
  a.name == b.name && a.value == b.value

/-- The presenter's per-group ordering: aliases.sort() by the Ord instance
(a stable sort, modelled by insertion sort on aliasLe). -/
def sortAliases (l : List Alias) : List Alias := List.insertionSort aliasLe l

/-- The general group: the sole member of every bucket of size exactly one,
sorted by general_aliases.sort(). -/
def generalGroup (m : Aliases) : List Alias :=
  sortAliases (m.aliases.filterMap
    (fun kv => if kv.2.length = 1 then kv.2.head? else none))

/-- Total number of aliases across all buckets. -/
def totalCount (m : Aliases) : Nat :=
  (m.aliases.map (fun kv => kv.2.length)).sum

/-- Number of input lines that are non-empty after trimming. -/
def nonEmptyTrimmedCount (lines : List (List Char)) : Nat :=
  (lines.filter (fun l => !(trim l).isEmpty)).length

/-! ## Parser soundness lemmas -/

/-- Every token is non-empty and made of tokenChar characters. -/
def GoodToks (toks : List (List Char)) : Prop :=
  ∀ t ∈ toks, t ≠ [] ∧ ∀ c ∈ t, tokenChar c = true

theorem takeWhile1_some {p : Char → Bool} {input rest tok : List Char}
    (h : takeWhile1 p input = some (rest, tok)) :
    tok ≠ [] ∧ (∀ c ∈ tok, p c = true) ∧ input = tok ++ rest := by
  unfold takeWhile1 at h
  split at h
  · simp at h
  · rename_i hne
    simp only [Option.some.injEq, Prod.mk.injEq] at h
    obtain ⟨hr, ht⟩ := h
    subst hr
    subst ht
    refine ⟨hne, fun c hc => List.mem_takeWhile_imp hc, ?_⟩
    simp [List.takeWhile_append_dropWhile]

theorem takeWhile1_progress {p : Char → Bool} {input rest tok : List Char}
    (h : takeWhile1 p input = some (rest, tok)) : rest.length < input.length := by
  obtain ⟨hne, _, heq⟩ := takeWhile1_some h
  rw [heq, List.length_append]
  have : 0 < tok.length := List.length_pos.mpr hne
  omega

theorem parse_token_some {input rest tok : List Char}
    (h : parse_token input = some (rest, tok)) :
    tok ≠ [] ∧ ∀ c ∈ tok, tokenChar c = true := by
  unfold parse_token at h
  exact ⟨(takeWhile1_some h).1, (takeWhile1_some h).2.1⟩

theorem sepListAux_good (fuel : Nat) : ∀ (input : List Char)
    (acc : List (List Char)), GoodToks acc → GoodToks (sepListAux fuel input acc).2 := by
  induction fuel with
  | zero => intro input acc hacc; simpa [sepListAux] using hacc
  | succ n ih =>
    intro input acc hacc
    rw [sepListAux]
    cases hms : multispace1 input with
    | none => simpa using hacc
    | some r =>
      obtain ⟨rest, ws⟩ := r
      dsimp only
      cases htk : parse_token rest with
      | none => simpa using hacc
      | some r2 =>
        obtain ⟨rest2, t⟩ := r2
        apply ih rest2 (acc ++ [t])
        intro t2 ht2
        rcases List.mem_append.mp ht2 with h | h
        · exact hacc t2 h
        · rw [List.mem_singleton] at h
          subst h
          exact ⟨(parse_token_some htk).1, (parse_token_some htk).2⟩

theorem sepListAux_ne_nil (fuel : Nat) : ∀ (input : List Char)
    (acc : List (List Char)), acc ≠ [] → (sepListAux fuel input acc).2 ≠ [] := by
  induction fuel with
  | zero => intro input acc hacc; simpa [sepListAux] using hacc
  | succ n ih =>
    intro input acc hacc
    rw [sepListAux]
    cases hms : multispace1 input with
    | none => simpa using hacc
    | some r =>
      obtain ⟨rest, ws⟩ := r
      dsimp only
      cases htk : parse_token rest with
      | none => simpa using hacc
      | some r2 =>
        obtain ⟨rest2, t⟩ := r2
        exact ih rest2 (acc ++ [t]) (by simp)

theorem parse_whitespace_separated_some {input rest : List Char}
    {toks : List (List Char)}
    (h : parse_whitespace_separated input = some (rest, toks)) :
    toks ≠ [] ∧ GoodToks toks := by
  unfold parse_whitespace_separated at h
  cases htk : parse_token input with
  | none => rw [htk] at h; simp at h
  | some r =>
    obtain ⟨rest1, t⟩ := r
    rw [htk] at h
    simp only [Option.some.injEq, Prod.mk.injEq] at h
    obtain ⟨h1, h2⟩ := h
    subst h2
    constructor
    · exact sepListAux_ne_nil _ _ _ (by simp)
    · apply sepListAux_good
      intro t2 ht2
      rw [List.mem_singleton] at ht2
      subst ht2
      exact ⟨(parse_token_some htk).1, (parse_token_some htk).2⟩

theorem parse_quoted_some {q : Char} {input rest : List Char}
    {toks : List (List Char)}
    (h : parse_quoted q input = some (rest, toks)) :
    toks ≠ [] ∧ GoodToks toks := by
  cases input with
  | nil => simp [parse_quoted] at h
  | cons c r =>
    simp only [parse_quoted] at h
    split at h
    · cases hws : parse_whitespace_separated r with
      | none => rw [hws] at h; simp at h
      | some r2 =>
        obtain ⟨rest2, toks2⟩ := r2
        rw [hws] at h
        cases rest2 with
        | nil => simp at h
        | cons c2 rest3 =>
          dsimp only at h
          split at h
          · simp only [Option.some.injEq, Prod.mk.injEq] at h
            obtain ⟨h1, h2⟩ := h
            subst h2
            exact parse_whitespace_separated_some hws
          · simp at h
    · simp at h

theorem parse_between_quotes_some {input rest : List Char}
    {toks : List (List Char)}
    (h : parse_between_quotes input = some (rest, toks)) :
    toks ≠ [] ∧ GoodToks toks := by
  unfold parse_between_quotes at h
  cases hq : parse_quoted '"' input with
  | some r => rw [hq] at h; cases h; exact parse_quoted_some hq
  | none => rw [hq] at h; exact parse_quoted_some h

theorem parse_value_some {input rest : List Char} {toks : List (List Char)}
    (h : parse_value input = some (rest, toks)) :
    toks ≠ [] ∧ GoodToks toks := by
  unfold parse_value at h
  cases hq : parse_between_quotes input with
  | some r => rw [hq] at h; cases h; exact parse_between_quotes_some hq
  | none => rw [hq] at h; exact parse_whitespace_separated_some h

theorem parse_name_some {input rest n : List Char}
    (h : parse_name input = some (rest, n)) :
    n ≠ [] ∧ (∀ c ∈ n, c ≠ '=') ∧ input = n ++ rest := by
  unfold parse_name at h
  obtain ⟨h1, h2, h3⟩ := takeWhile1_some h
  refine ⟨h1, fun c hc => ?_, h3⟩
  have := h2 c hc
  simpa [bne_iff_ne] using this

theorem parse_alias_some {input rest : List Char} {a : Alias}
    (h : parse_alias input = some (rest, a)) :
    a.name ≠ [] ∧ (∀ c ∈ a.name, c ≠ '=') ∧ a.value ≠ [] ∧ GoodToks a.value := by
  unfold parse_alias at h
  cases hn : parse_name input with
  | none => rw [hn] at h; simp at h
  | some r =>
    obtain ⟨rest1, n⟩ := r
    rw [hn] at h
    cases rest1 with
    | nil => simp at h
    | cons c rest2 =>
      dsimp only at h
      split at h
      · cases hv : parse_value rest2 with
        | none => rw [hv] at h; simp at h
        | some r2 =>
          obtain ⟨rest3, v⟩ := r2
          rw [hv] at h
          simp only [Option.some.injEq, Prod.mk.injEq] at h
          obtain ⟨h1, h2⟩ := h
          subst h2
          exact ⟨(parse_name_some hn).1, (parse_name_some hn).2.1,
            (parse_value_some hv).1, (parse_value_some hv).2⟩
      · simp at h

/-- Claim C1: every line accepted by parse_alias yields an Alias whose name
is non-empty and free of the equals sign, whose value has at least one
token, and whose tokens are all non-empty and free of whitespace, single
quotes and double quotes. -/
theorem C1_parse_alias_output_invariants (line rest : List Char) (a : Alias)
    (h : parse_alias line = some (rest, a)) :
    a.name ≠ [] ∧ ('=' ∉ a.name) ∧ a.value ≠ [] ∧
      ∀ t ∈ a.value, t ≠ [] ∧ ∀ c ∈ t,
        c ≠ '\'' ∧ c ≠ '"' ∧ rustIsWhitespace c = false := by
  obtain ⟨h1, h2, h3, h4⟩ := parse_alias_some h
  refine ⟨h1, fun hm => (h2 _ hm) rfl, h3, fun t ht => ?_⟩
  obtain ⟨ht1, ht2⟩ := h4 t ht
  refine ⟨ht1, fun c hc => ?_⟩
  have := ht2 c hc
  unfold tokenChar at this
  simp only [Bool.and_eq_true, bne_iff_ne, ne_eq, Bool.not_eq_true'] at this
  exact ⟨this.1.1, this.1.2, this.2⟩

/-- Witness for C1 at the concrete line vim=nvim. -/
theorem C1_witness :
    (Alias.mk ("vim".toList) [("nvim".toList)]).name ≠ [] ∧
      ('=' ∉ (Alias.mk ("vim".toList) [("nvim".toList)]).name) ∧
      (Alias.mk ("vim".toList) [("nvim".toList)]).value ≠ [] ∧
      ∀ t ∈ (Alias.mk ("vim".toList) [("nvim".toList)]).value, t ≠ [] ∧
        ∀ c ∈ t, c ≠ '\'' ∧ c ≠ '"' ∧ rustIsWhitespace c = false :=
  C1_parse_alias_output_invariants ("vim=nvim".toList) []
    (Alias.mk ("vim".toList) [("nvim".toList)]) (by decide)

/-! ## Driver lemmas -/

theorem push_of_value_ne_nil {m : Aliases} {a : Alias} (h : a.value ≠ []) :
    ∃ m2, m.push a = some m2 := by
  cases hv : a.value with
  | nil => exact absurd hv h
  | cons k rest =>
    refine ⟨⟨entryPush m.aliases k a⟩, ?_⟩
    unfold Aliases.push
    rw [hv]

theorem parse_alias_nil : parse_alias [] = none := rfl

theorem processLine_some (st : DriverState) (raw : List Char) :
    ∃ st2, processLine st raw = some st2 := by
  unfold processLine
  split
  · exact ⟨st, rfl⟩
  · cases hp : parse_alias (trim raw) with
    | none => exact ⟨_, rfl⟩
    | some r =>
      obtain ⟨rest, a⟩ := r
      obtain ⟨m2, hm⟩ := push_of_value_ne_nil
        (m := st.aliases) (parse_alias_some hp).2.2.1
      dsimp only
      rw [hm]
      exact ⟨_, rfl⟩

theorem format_aliases_some : ∀ (lines : List (List Char)) (st : DriverState),
    ∃ st2, format_aliases st lines = some st2 := by
  intro lines
  induction lines with
  | nil => intro st; exact ⟨st, rfl⟩
  | cons l ls ih =>
    intro st
    obtain ⟨st2, h⟩ := processLine_some st l
    rw [format_aliases, h]
    exact ih st2

/-- Claim C10: every successfully parsed Alias has a non-empty value (so
the unchecked indexing value[0] in Aliases::push is in bounds), and the
driver loop never reaches the modelled panic on any input. -/
theorem C10_push_never_panics :
    (∀ (line rest : List Char) (a : Alias),
      parse_alias line = some (rest, a) → a.value ≠ []) ∧
    ∀ lines : List (List Char), (runDriver lines).isSome = true := by
  constructor
  · intro line rest a h
    exact (parse_alias_some h).2.2.1
  · intro lines
    unfold runDriver
    obtain ⟨st2, h⟩ := format_aliases_some lines ⟨⟨[]⟩, []⟩
    rw [h]
    rfl

/-- Witness for C10 at the concrete line a=b. -/
theorem C10_witness :
    (Alias.mk ("a".toList) [("b".toList)]).value ≠ [] :=
  C10_push_never_panics.1 ("a=b".toList) []
    (Alias.mk ("a".toList) [("b".toList)]) (by decide)

/-! ## Counting lemmas for the conservation claim -/

theorem entryPush_count (m : List (List Char × List Alias)) (k : List Char)
    (a : Alias) :
    ((entryPush m k a).map (fun kv => kv.2.length)).sum
      = ((m.map (fun kv => kv.2.length)).sum) + 1 := by
  induction m with
  | nil => simp [entryPush]
  | cons kv rest ih =>
    obtain ⟨k2, v⟩ := kv
    unfold entryPush
    split
    · simp [List.length_append]
      omega
    · simp only [List.map_cons, List.sum_cons, ih]
      omega

theorem push_count {m m2 : Aliases} {a : Alias} (h : m.push a = some m2) :
    totalCount m2 = totalCount m + 1 := by
  unfold Aliases.push at h
  cases hv : a.value with
  | nil => rw [hv] at h; simp at h
  | cons k rest =>
    rw [hv] at h
    simp only [Option.some.injEq] at h
    subst h
    exact entryPush_count m.aliases k a

theorem nonEmptyTrimmedCount_cons (l : List Char) (ls : List (List Char)) :
    nonEmptyTrimmedCount (l :: ls)
      = (if trim l = [] then 0 else 1) + nonEmptyTrimmedCount ls := by
  unfold nonEmptyTrimmedCount
  by_cases h : trim l = []
  · simp [List.filter_cons, h]
  · simp [List.filter_cons, h]
    omega

theorem format_aliases_count : ∀ (lines : List (List Char))
    (st st2 : DriverState), format_aliases st lines = some st2 →
    totalCount st2.aliases + st2.errors.length
      = totalCount st.aliases + st.errors.length + nonEmptyTrimmedCount lines := by
  intro lines
  induction lines with
  | nil =>
    intro st st2 h
    unfold format_aliases at h
    simp only [Option.some.injEq] at h
    subst h
    simp [nonEmptyTrimmedCount]
  | cons l ls ih =>
    intro st st2 h
    rw [format_aliases] at h
    cases hp : processLine st l with
    | none => rw [hp] at h; simp at h
    | some stm =>
      rw [hp] at h
      have hrec := ih stm st2 h
      rw [nonEmptyTrimmedCount_cons]
      unfold processLine at hp
      split at hp
      · rename_i he
        simp only [Option.some.injEq] at hp
        subst hp
        rw [if_pos he]
        omega
      · rename_i he
        rw [if_neg he]
        cases hpa : parse_alias (trim l) with
        | some r =>
          obtain ⟨rest, a⟩ := r
          rw [hpa] at hp
          dsimp only at hp
          cases hpush : st.aliases.push a with
          | none => rw [hpush] at hp; simp at hp
          | some m2 =>
            rw [hpush] at hp
            simp only [Option.some.injEq] at hp
            subst hp
            have hc := push_count hpush
            simp only at hrec
            omega
        | none =>
          rw [hpa] at hp
          simp only [Option.some.injEq] at hp
          subst hp
          simp only [List.length_append, List.length_singleton] at hrec
          omega

/-- Claim C6: over any run of the driver, the number of aliases across all
buckets plus the number of unparsable lines equals the number of non-empty
trimmed input lines. -/
theorem C6_conservation (lines : List (List Char)) (st : DriverState)
    (h : runDriver lines = some st) :
    totalCount st.aliases + st.errors.length = nonEmptyTrimmedCount lines := by
  have hc := format_aliases_count lines ⟨⟨[]⟩, []⟩ st h
  simpa [totalCount] using hc

/-- Witness for C6 on a two-line input with one parse failure. -/
theorem C6_witness :
    totalCount (DriverState.mk
        ⟨[(("b".toList), [Alias.mk ("a".toList) [("b".toList)]])]⟩
        [("nope".toList)]).aliases
      + (DriverState.mk
        ⟨[(("b".toList), [Alias.mk ("a".toList) [("b".toList)]])]⟩
        [("nope".toList)]).errors.length
      = nonEmptyTrimmedCount [("a=b".toList), ("nope".toList)] :=
  C6_conservation [("a=b".toList), ("nope".toList)]
    (DriverState.mk
      ⟨[(("b".toList), [Alias.mk ("a".toList) [("b".toList)]])]⟩
      [("nope".toList)]) (by decide)

/-! ## Bucket-key invariant -/

/-- Every alias stored under key k has k as its first value token. -/
def BucketInv (m : List (List Char × List Alias)) : Prop :=
  ∀ kv ∈ m, ∀ a ∈ kv.2, a.value.head? = some kv.1

theorem entryPush_inv {m : List (List Char × List Alias)} {k : List Char}
    {a : Alias} (hm : BucketInv m) (ha : a.value.head? = some k) :
    BucketInv (entryPush m k a) := by
  induction m with
  | nil =>
    intro kv hkv a2 ha2
    simp only [entryPush, List.mem_singleton] at hkv
    subst hkv
    simp only [List.mem_singleton] at ha2
    subst ha2
    simpa using ha
  | cons kv0 rest ih =>
    obtain ⟨k2, v⟩ := kv0
    unfold entryPush
    split
    · rename_i heq
      intro kv hkv a2 ha2
      rcases List.mem_cons.mp hkv with h1 | h1
      · subst h1
        rcases List.mem_append.mp ha2 with h2 | h2
        · exact hm (k2, v) (List.mem_cons_self _ _) a2 h2
        · rw [List.mem_singleton] at h2
          subst h2
          simpa [heq] using ha
      · exact hm kv (List.mem_cons_of_mem _ h1) a2 ha2
    · intro kv hkv a2 ha2
      rcases List.mem_cons.mp hkv with h1 | h1
      · subst h1
        exact hm (k2, v) (List.mem_cons_self _ _) a2 ha2
      · exact ih (fun kv2 h2 => hm kv2 (List.mem_cons_of_mem _ h2)) kv h1 a2 ha2

theorem pushAll_inv : ∀ (as : List Alias) (m m2 : Aliases),
    BucketInv m.aliases → pushAll m as = some m2 → BucketInv m2.aliases := by
  intro as
  induction as with
  | nil =>
    intro m m2 hm h
    unfold pushAll at h
    simp only [Option.some.injEq] at h
    subst h
    exact hm
  | cons a rest ih =>
    intro m m2 hm h
    unfold pushAll at h
    cases hp : m.push a with
    | none => rw [hp] at h; simp at h
    | some mm =>
      rw [hp] at h
      refine ih mm m2 ?_ h
      unfold Aliases.push at hp
      cases hv : a.value with
      | nil => rw [hv] at hp; simp at hp
      | cons k vr =>
        rw [hv] at hp
        simp only [Option.some.injEq] at hp
        subst hp
        exact entryPush_inv hm (by simp [hv])

/-- Claim C5: after any sequence of pushes into the grouper, every Alias
found under key k has k as its first value token. -/
theorem C5_bucket_key_invariant (as : List Alias) (m : Aliases)
    (h : pushAll ⟨[]⟩ as = some m) :
    ∀ (k : List Char) (v : List Alias), (k, v) ∈ m.aliases →
      ∀ a ∈ v, a.value.head? = some k := by
  have hinv := pushAll_inv as ⟨[]⟩ m (by intro kv hkv; simp at hkv) h
  intro k v hkv a ha
  exact hinv (k, v) hkv a ha

/-- Witness for C5 after one concrete push. -/
theorem C5_witness :
    (Alias.mk ("f".toList) [("g".toList)]).value.head? = some ("g".toList) :=
  C5_bucket_key_invariant [Alias.mk ("f".toList) [("g".toList)]]
    ⟨[(("g".toList), [Alias.mk ("f".toList) [("g".toList)]])]⟩ (by decide)
    ("g".toList) [Alias.mk ("f".toList) [("g".toList)]] (by simp)
    (Alias.mk ("f".toList) [("g".toList)]) (by simp)

/-! ## Equals-sign and empty-value behaviour -/

theorem takeWhile_append_of_neg {p : Char → Bool} (xs : List Char) {y : Char}
    (zs : List Char) (hxs : ∀ x ∈ xs, p x = true) (hy : p y = false) :
    (xs ++ y :: zs).takeWhile p = xs ∧ (xs ++ y :: zs).dropWhile p = y :: zs := by
  induction xs with
  | nil => simp [List.takeWhile_cons, List.dropWhile_cons, hy]
  | cons x xs ih =>
    have hx : p x = true := hxs x (by simp)
    have hrest := ih (fun a ha => hxs a (by simp [ha]))
    simp [List.takeWhile_cons, List.dropWhile_cons, hx, hrest.1, hrest.2]

theorem parse_name_concat {name : List Char} (suffix : List Char)
    (h1 : name ≠ []) (h2 : '=' ∉ name) :
    parse_name (name ++ '=' :: suffix) = some ('=' :: suffix, name) := by
  have hall : ∀ x ∈ name, ((x != '=') = true) := by
    intro x hx
    have : x ≠ '=' := fun he => h2 (he ▸ hx)
    simpa [bne_iff_ne] using this
  have hy : (('=' : Char) != '=') = false := by decide
  obtain ⟨ht, hd⟩ := takeWhile_append_of_neg name suffix hall hy
  unfold parse_name takeWhile1
  rw [ht, hd, if_neg h1]

theorem parse_alias_concat {name : List Char} (suffix : List Char)
    (h1 : name ≠ []) (h2 : '=' ∉ name) :
    parse_alias (name ++ '=' :: suffix)
      = match parse_value suffix with
        | none => none
        | some (rest, v) => some (rest, ⟨name, v⟩) := by
  unfold parse_alias
  rw [parse_name_concat suffix h1 h2]
  dsimp only
  rw [if_pos rfl]

/-- Claim C8: empty values fail to parse, both when nothing follows the
equals sign and when the value is an empty quoted string. -/
theorem C8_empty_value_fails (name : List Char) (h1 : name ≠ [])
    (h2 : '=' ∉ name) :
    parse_alias (name ++ ('=' :: [])) = none ∧
    parse_alias (name ++ ('=' :: '\'' :: '\'' :: [])) = none ∧
    parse_alias (name ++ ('=' :: '"' :: '"' :: [])) = none := by
  refine ⟨?_, ?_, ?_⟩ <;> rw [parse_alias_concat _ h1 h2] <;> rfl

/-- Witness for C8 at the name foo. -/
theorem C8_witness :
    parse_alias (("foo".toList) ++ ('=' :: [])) = none ∧
    parse_alias (("foo".toList) ++ ('=' :: '\'' :: '\'' :: [])) = none ∧
    parse_alias (("foo".toList) ++ ('=' :: '"' :: '"' :: [])) = none :=
  C8_empty_value_fails ("foo".toList) (by decide) (by decide)

/-- Claim C7: the first equals sign separates name from value, later equals
signs belong to the value token (quoted or bare), and a line without an
equals sign fails to parse. -/
theorem C7_first_equals_separates :
    (parse_alias ("foo='bar=baz'".toList)
        = some ([], ⟨("foo".toList), [("bar=baz".toList)]⟩)) ∧
    (parse_alias ("foo=bar=baz".toList)
        = some ([], ⟨("foo".toList), [("bar=baz".toList)]⟩)) ∧
    ∀ line : List Char, '=' ∉ line → parse_alias line = none := by
  refine ⟨by decide, by decide, ?_⟩
  intro line hne
  cases line with
  | nil => rfl
  | cons c rest =>
    have hall : ∀ x ∈ c :: rest, ((x != '=') = true) := by
      intro x hx
      have : x ≠ '=' := fun he => hne (he ▸ hx)
      simpa [bne_iff_ne] using this
    have h1 : parse_name (c :: rest) = some ([], c :: rest) := by
      unfold parse_name takeWhile1
      rw [List.takeWhile_eq_self_iff.mpr (by simpa using hall),
        List.dropWhile_eq_nil_iff.mpr (by simpa using hall)]
      simp
    unfold parse_alias
    rw [h1]

/-- Witness for C7 on a concrete line with no equals sign. -/
theorem C7_witness : parse_alias ("no equals here".toList) = none :=
  C7_first_equals_separates.2.2 ("no equals here".toList) (by decide)

/-- Claim C9: trailing unconsumed characters (such as trailing whitespace)
after a successfully parsed value do not cause failure, and the driver
treats every successful parse as a parsed line regardless of the remainder:
the alias is pushed into a bucket and the line never joins the unparsable
list. -/
theorem C9_trailing_remainder :
    (parse_alias ("foo=bar   ".toList)
        = some (("   ".toList), ⟨("foo".toList), [("bar".toList)]⟩)) ∧
    ∀ (raw rest : List Char) (a : Alias) (st : DriverState),
      parse_alias (trim raw) = some (rest, a) →
      ∃ m, st.aliases.push a = some m ∧
        processLine st raw = some ⟨m, st.errors⟩ := by
  constructor
  · decide
  · intro raw rest a st h
    obtain ⟨m, hm⟩ := push_of_value_ne_nil
      (m := st.aliases) (parse_alias_some h).2.2.1
    refine ⟨m, hm, ?_⟩
    have hne : trim raw ≠ [] := by
      intro he
      rw [he, parse_alias_nil] at h
      simp at h
    unfold processLine
    rw [if_neg hne, h]
    dsimp only
    rw [hm]

/-- Witness for C9 at the concrete line x=y from the empty driver state. -/
theorem C9_witness :
    ∃ m, (DriverState.mk ⟨[]⟩ []).aliases.push
        (Alias.mk ("x".toList) [("y".toList)]) = some m ∧
      processLine (DriverState.mk ⟨[]⟩ []) ("x=y".toList)
        = some ⟨m, (DriverState.mk ⟨[]⟩ []).errors⟩ :=
  C9_trailing_remainder.2 ("x=y".toList) []
    (Alias.mk ("x".toList) [("y".toList)]) (DriverState.mk ⟨[]⟩ []) (by decide)

/-! ## Ordering lemmas -/

theorem cmpChars_eq_iff : ∀ x y : List Char, cmpChars x y = Ordering.eq ↔ x = y := by
  intro x
  induction x with
  | nil =>
    intro y
    cases y <;> simp [cmpChars]
  | cons a xs ih =>
    intro y
    cases y with
    | nil => simp [cmpChars]
    | cons b ys =>
      rcases lt_trichotomy a b with h | h | h
      · simp only [cmpChars, if_pos h]
        constructor
        · intro hc; exact absurd hc (by decide)
        · intro hc
          injection hc with h1 h2
          exact absurd h1 (ne_of_lt h)
      · subst h
        simp only [cmpChars, if_neg (lt_irrefl a), List.cons.injEq, true_and]
        exact ih ys
      · simp only [cmpChars, if_neg (asymm h), if_pos h]
        constructor
        · intro hc; exact absurd hc (by decide)
        · intro hc
          injection hc with h1 h2
          exact absurd h1.symm (ne_of_lt h)

theorem cmpChars_gt_iff : ∀ x y : List Char,
    cmpChars x y = Ordering.gt ↔ cmpChars y x = Ordering.lt := by
  intro x
  induction x with
  | nil =>
    intro y
    cases y <;> simp [cmpChars]
  | cons a xs ih =>
    intro y
    cases y with
    | nil => simp [cmpChars]
    | cons b ys =>
      rcases lt_trichotomy a b with h | h | h
      · simp [cmpChars, h, asymm h]
      · subst h
        simp [cmpChars, lt_irrefl, ih]
      · simp [cmpChars, h, asymm h]

theorem cmpChars_lt_iff : ∀ x y : List Char,
    cmpChars x y = Ordering.lt ↔ List.Lex (· < ·) x y := by
  intro x
  induction x with
  | nil =>
    intro y
    cases y with
    | nil =>
      simp only [cmpChars]
      constructor
      · intro hc; exact absurd hc (by decide)
      · intro hc; cases hc
    | cons b ys =>
      simp only [cmpChars]
      constructor
      · intro _; exact List.Lex.nil
      · intro _; trivial
  | cons a xs ih =>
    intro y
    cases y with
    | nil =>
      simp only [cmpChars]
      constructor
      · intro hc; exact absurd hc (by decide)
      · intro hc; cases hc
    | cons b ys =>
      rcases lt_trichotomy a b with h | h | h
      · simp only [cmpChars, if_pos h]
        constructor
        · intro _; exact List.Lex.rel h
        · intro _; trivial
      · subst h
        simp only [cmpChars, if_neg (lt_irrefl a)]
        constructor
        · intro hc; exact List.Lex.cons ((ih ys).mp hc)
        · intro hc
          cases hc with
          | cons hl => exact (ih ys).mpr hl
          | rel hr => exact absurd hr (lt_irrefl a)
      · simp only [cmpChars, if_neg (asymm h), if_pos h]
        constructor
        · intro hc; exact absurd hc (by decide)
        · intro hc
          cases hc with
          | cons hl => exact absurd h (lt_irrefl _)
          | rel hr => exact absurd hr (asymm h)

theorem cmpChars_le_trans : ∀ x y z : List Char,
    cmpChars x y ≠ Ordering.gt → cmpChars y z ≠ Ordering.gt →
    cmpChars x z ≠ Ordering.gt := by
  intro x
  induction x with
  | nil =>
    intro y z h1 h2
    cases z with
    | nil => simp [cmpChars]
    | cons c zs => simp [cmpChars]
  | cons a xs ih =>
    intro y z h1 h2
    cases y with
    | nil => simp [cmpChars] at h1
    | cons b ys =>
      cases z with
      | nil => simp [cmpChars] at h2
      | cons c zs =>
        simp only [cmpChars] at h1 h2 ⊢
        rcases lt_trichotomy a c with hac | hac | hac
        · simp [hac]
        · subst hac
          simp only [lt_irrefl, if_neg, ite_false]
          rcases lt_trichotomy a b with hab | hab | hab
          · simp [asymm hab, hab] at h2
          · subst hab
            simp only [lt_irrefl, if_neg, ite_false] at h1 h2
            exact ih ys zs h1 h2
          · simp [asymm hab, hab] at h1
        · rcases lt_trichotomy a b with hab | hab | hab
          · have hcb : c < b := lt_trans hac hab
            simp [asymm hcb, hcb] at h2
          · subst hab
            simp [asymm hac, hac] at h2
          · simp [asymm hab, hab] at h1

theorem aliasLe_total : ∀ a b : Alias, aliasLe a b ∨ aliasLe b a := by
  intro a b
  unfold aliasLe Alias.cmp
  by_cases h : cmpChars a.name b.name = Ordering.gt
  · right
    have hlt := (cmpChars_gt_iff _ _).mp h
    rw [hlt]
    decide
  · left; exact h

instance : IsTotal Alias aliasLe := ⟨aliasLe_total⟩

instance : IsTrans Alias aliasLe :=
  ⟨fun a b c h1 h2 => cmpChars_le_trans a.name b.name c.name h1 h2⟩

/-! ## Claims about equality, ordering and presentation -/

/-- Counterexample to C3 as stated: two Alias records with equal names but
different values are NOT equal under the derived PartialEq, which compares
both fields. -/
theorem C3_counterexample :
    (Alias.mk ("a".toList) [("x".toList)]).name
        = (Alias.mk ("a".toList) [("y".toList)]).name ∧
    aliasEqDerived (Alias.mk ("a".toList) [("x".toList)])
        (Alias.mk ("a".toList) [("y".toList)]) = false := by decide

/-- Claim C3 (amended): the derived equality holds exactly on full
structural equality (name AND value), while the manual Ord::cmp used for
sorting compares by name alone: it returns eq exactly on equal names and
lt exactly on lexicographically smaller names (there is no Hash impl). -/
theorem C3_eq_by_all_fields_cmp_by_name :
    ∀ a b : Alias,
      (aliasEqDerived a b = true ↔ a = b) ∧
      (a.cmp b = Ordering.eq ↔ a.name = b.name) ∧
      (a.cmp b = Ordering.lt ↔ List.Lex (· < ·) a.name b.name) := by
  intro a b
  refine ⟨?_, cmpChars_eq_iff _ _, cmpChars_lt_iff _ _⟩
  cases a with
  | mk n1 v1 =>
    cases b with
    | mk n2 v2 =>
      unfold aliasEqDerived
      simp [Alias.mk.injEq, Bool.and_eq_true]

/-- Counterexample to C4 as stated: an input producing two aliases of the
same name in one bucket yields a printed group that is not strictly
ascending by name (the two entries compare equal). -/
theorem C4_counterexample :
    runDriver [("foo=a b".toList), ("foo=a c".toList)]
      = some ⟨⟨[(("a".toList),
          [Alias.mk ("foo".toList) [("a".toList), ("b".toList)],
           Alias.mk ("foo".toList) [("a".toList), ("c".toList)]])]⟩, []⟩ ∧
    sortAliases
        [Alias.mk ("foo".toList) [("a".toList), ("b".toList)],
         Alias.mk ("foo".toList) [("a".toList), ("c".toList)]]
      = [Alias.mk ("foo".toList) [("a".toList), ("b".toList)],
         Alias.mk ("foo".toList) [("a".toList), ("c".toList)]] ∧
    ¬ List.Pairwise (fun x y : Alias => x.cmp y = Ordering.lt)
        (sortAliases
          [Alias.mk ("foo".toList) [("a".toList), ("b".toList)],
           Alias.mk ("foo".toList) [("a".toList), ("c".toList)]]) := by decide

/-- Claim C4 (amended): within every printed group (each multi-alias
command group and the general group), the aliases appear in non-decreasing
order by name; strict ascent can fail only between aliases that share a
name. -/
theorem C4_groups_sorted_by_name :
    (∀ l : List Alias, List.Pairwise aliasLe (sortAliases l)) ∧
    ∀ m : Aliases, List.Pairwise aliasLe (generalGroup m) := by
  constructor
  · intro l
    exact List.sorted_insertionSort aliasLe l
  · intro m
    exact List.sorted_insertionSort aliasLe _

/-- Counterexample to C2 as stated: the line foo=bar'baz, whose value holds
an embedded unescaped quote, is NOT rejected: parse_alias succeeds (value
stops before the quote) and the driver places the alias into a bucket,
leaving the unparsable list empty. -/
theorem C2_counterexample :
    parse_alias ("foo=bar'baz".toList)
      = some (("'baz".toList), Alias.mk ("foo".toList) [("bar".toList)]) ∧
    runDriver [("foo=bar'baz".toList)]
      = some ⟨⟨[(("bar".toList),
          [Alias.mk ("foo".toList) [("bar".toList)]])]⟩, []⟩ := by decide

/-- Claim C2 (amended): a value with an embedded unescaped quote is not
uniformly rejected.  When the first token parses before the quote, the
line is accepted with the value truncated at the quote and the rest left
as unconsumed remainder, and the driver buckets it (foo=bar'baz and
foo='bar'baz' both yield value [bar]); only a line whose value parser
fails outright, such as foo="bar'baz", joins the unparsable list. -/
theorem C2_embedded_quote_behaviour :
    (parse_alias ("foo=bar'baz".toList)
      = some (("'baz".toList), Alias.mk ("foo".toList) [("bar".toList)])) ∧
    (parse_alias ("foo='bar'baz'".toList)
      = some (("baz'".toList), Alias.mk ("foo".toList) [("bar".toList)])) ∧
    runDriver [("foo=bar'baz".toList), ("foo='bar'baz'".toList)]
      = some ⟨⟨[(("bar".toList),
          [Alias.mk ("foo".toList) [("bar".toList)],
           Alias.mk ("foo".toList) [("bar".toList)]])]⟩, []⟩ ∧
    runDriver [("foo=\"bar'baz\"".toList)]
      = some ⟨⟨[]⟩, [("foo=\"bar'baz\"".toList)]⟩ := by decide

end FormatAliases
